import Mathlib

/-!
Shallow embedding of `vpack.h`, a single-header codec packing genomic
single-nucleotide-variant records into 64-bit words.

Machine integers are modelled as `Nat` with explicit reduction modulo
`2 ^ 64` at every left shift of a `uint64_t` value, and modulo `2 ^ 32`
where a value crosses a `uint32_t` boundary.  C byte buffers become
functions `Nat → Nat` or tuples.
-/

namespace VPack

/-- The table `dna_8`, indexed by the low 3 bits of an input byte. -/
def dna_8 : List Nat := [4, 0, 4, 1, 3, 4, 4, 2]

/-- The table `dec_dna_8`: `{'A','C','G','T','N'}`, declared with 8 slots,
the remaining three zero-initialized. -/
def dec_dna_8 : List Nat := [65, 67, 71, 84, 78, 0, 0, 0]

/-- `ENCODE(c) = dna_8[c & _DNA_8_MASK]` with `_DNA_8_MASK = 0x07`. -/
def ENCODE (c : Nat) : Nat := dna_8.getD (c &&& 7) 0

/-- `VPACK_BASE(v, base)`: `(*v) <<= 2; (*v) |= ENCODE(base);` on a
`uint64_t`, returning the new value of `*v`. -/
def VPACK_BASE (v base : Nat) : Nat := ((v <<< 2) % 2 ^ 64) ||| ENCODE base

/-- The `base` output of `VUNPACK_BASE(v, base)`:
`(*base) = dec_dna_8[(*v) & _DECODE_8_MASK]` with `_DECODE_8_MASK = 0x03`. -/
def VUNPACK_BASE_base (v : Nat) : Nat := dec_dna_8.getD (v &&& 3) 0

/-- The `v` output of `VUNPACK_BASE(v, base)`: `(*v) >>= 2`. -/
def VUNPACK_BASE_v (v : Nat) : Nat := v >>> 2

/-- The 3-bit code the `switch` in `vpack_gt9` ORs in for a genotype
character; `none` for the `default:` case, which ORs nothing. -/
def gtCode (c : Nat) : Option Nat :=
  if c = 48 then some 0        -- '0'
  else if c = 49 then some 1   -- '1'
  else if c = 46 then some 2   -- '.'
  else if c = 47 then some 3   -- '/'
  else if c = 124 then some 4  -- '|'
  else none

/-- One iteration of the loop in `vpack_gt9`: `(*v) <<= 3;` then the
`switch` on `gt[i]`. -/
def vpack_gt9_step (v c : Nat) : Nat :=
  match gtCode c with
  | some k => ((v <<< 3) % 2 ^ 64) ||| k
  | none => (v <<< 3) % 2 ^ 64

/-- `vpack_gt9(v, gt)`: the three loop iterations over `gt[0], gt[1], gt[2]`,
returning the new value of `*v`. -/
def vpack_gt9 (v : Nat) (gt : Nat × Nat × Nat) : Nat :=
  vpack_gt9_step (vpack_gt9_step (vpack_gt9_step v gt.1) gt.2.1) gt.2.2

/-- The character the `switch` in `vunpack_gt9` writes for a 3-bit code;
`none` for the `default:` case, which leaves `u[i]` untouched. -/
def gtChar (k : Nat) : Option Nat :=
  if k = 0 then some 48
  else if k = 1 then some 49
  else if k = 2 then some 46
  else if k = 3 then some 47
  else if k = 4 then some 124
  else none

/-- `vunpack_gt9(v, u)`: loop `i = 2, 1, 0`, each step reading `(*v) & 7`
into `u[i]` (recognized codes only) and shifting `(*v)` right 3 bits.
Returns the final `*v` and the buffer `u` as a triple. -/
def vunpack_gt9 (v : Nat) (u : Nat × Nat × Nat) : Nat × (Nat × Nat × Nat) :=
  let u2 := (gtChar (v &&& 7)).getD u.2.2
  let v1 := v >>> 3
  let u1 := (gtChar (v1 &&& 7)).getD u.2.1
  let v2 := v1 >>> 3
  let u0 := (gtChar (v2 &&& 7)).getD u.1
  (v2 >>> 3, (u0, u1, u2))

/-- `snvpack64(sample_idx, chrom, pos, ref, alt, gt)`.  The first three
parameters are `uint32_t`, hence reduced modulo `2 ^ 32` at entry. -/
def snvpack64 (sample_idx chrom pos ref alt : Nat) (gt : Nat × Nat × Nat) : Nat :=
  let v : Nat := 0 ||| (sample_idx % 2 ^ 32)
  let v := ((v <<< 5) % 2 ^ 64) ||| (chrom % 2 ^ 32)
  let v := ((v <<< 28) % 2 ^ 64) ||| (pos % 2 ^ 32)
  let v := VPACK_BASE v ref
  let v := VPACK_BASE v alt
  vpack_gt9 v gt

/-- The outputs of `snvunpack64`, one field per output pointer of the C
function, plus the final value left in `*v`. -/
structure snv_fields where
  v : Nat
  sample_idx : Nat
  chrom : Nat
  pos : Nat
  ref : Nat
  alt : Nat
  gt : Nat × Nat × Nat
deriving Repr, DecidableEq

/-- `snvunpack64(v, sample_idx, chrom, pos, ref, alt, gt)`; `gtbuf` is the
content of the caller's 3-byte `gt` buffer before the call.  The
`(*sample_idx) = (*v)` assignment narrows `uint64_t` to `uint32_t`. -/
def snvunpack64 (v0 : Nat) (gtbuf : Nat × Nat × Nat) : snv_fields :=
  let r := vunpack_gt9 v0 gtbuf
  let v := r.1
  let alt := VUNPACK_BASE_base v
  let v := VUNPACK_BASE_v v
  let ref := VUNPACK_BASE_base v
  let v := VUNPACK_BASE_v v
  let pos := v &&& 0x0FFFFFFF
  let v := v >>> 28
  let chrom := v &&& 0x1F
  let v := v >>> 5
  ⟨v, v % 2 ^ 32, chrom, pos, ref, alt, r.2⟩

/-- `vpack64_loc(chrom, pos, ref, alt)`. -/
def vpack64_loc (chrom pos ref alt : Nat) : Nat :=
  let v : Nat := 0 ||| (chrom % 2 ^ 32)
  let v := ((v <<< 28) % 2 ^ 64) ||| (pos % 2 ^ 32)
  let v := VPACK_BASE v ref
  VPACK_BASE v alt

/-- The struct `vpack_rec1_t`; the 64-byte array `gt` is modelled as a
function from index to byte value. -/
structure vpack_rec1_t where
  v : Nat
  offset : Nat
  gt : Nat → Nat
  u : Nat

/-- `vpack_rec1_t_init()`: zeroed initialization. -/
def vpack_rec1_t_init : vpack_rec1_t := ⟨0, 0, fun _ => 0, 0⟩

/-- `vpack_rec(rec, a, b)`: returns the status (`0` success, `-1` out of
bounds) and the record after the call.  The two `offset` increments stay
below 65, so `uint32_t` wrap-around cannot occur. -/
def vpack_rec (rec : vpack_rec1_t) (a b : Nat) : Int × vpack_rec1_t :=
  if rec.offset ≥ 63 then (-1, rec)
  else
    let v := VPACK_BASE rec.v a
    let offset := rec.offset + 1
    let v := VPACK_BASE v b
    let offset := offset + 1
    (0, { v := v, offset := offset, gt := rec.gt, u := 1 })

/-- The loop of `vunpack_rec`, counting `i` down from `fuel - 1` to `0`:
`rec->gt[i] = dec_dna_8[rec->v & 3]; rec->v >>= 2;`. -/
def vunpack_loop : Nat → (Nat → Nat) → Nat → Nat × (Nat → Nat)
  | v, gt, 0 => (v, gt)
  | v, gt, i + 1 =>
    vunpack_loop (v >>> 2) (Function.update gt i (dec_dna_8.getD (v &&& 3) 0)) i

/-- `vunpack_rec(rec)`: runs the loop for `rec->offset` iterations and sets
the lifecycle tag `u` to 2.  The C function returns `void`. -/
def vunpack_rec (rec : vpack_rec1_t) : vpack_rec1_t :=
  let r := vunpack_loop rec.v rec.gt rec.offset
  { v := r.1, offset := rec.offset, gt := r.2, u := 2 }

/-- `vp_get_genotype(rec, sample_idx, gt)`: returns the status and the
content of the caller's `vpack_gt_t` after the call (`gtbuf` being its
content before; on failure it is not written).  `sample_idx` is
`uint32_t`. -/
def vp_get_genotype (rec : vpack_rec1_t) (sample_idx : Nat) (gtbuf : Nat × Nat) :
    Int × (Nat × Nat) :=
  let si := sample_idx % 2 ^ 32
  if rec.u < 2 ∨ si ≥ rec.offset / 2 then (-1, gtbuf)
  else (0, (rec.gt (si * 2), rec.gt (si * 2 + 1)))

/-- Driving the accumulator from a fresh record through a list of genotype
pairs: the record after all `vpack_rec` calls, together with the list of
returned statuses. -/
def runRec (ps : List (Nat × Nat)) : vpack_rec1_t × List Int :=
  ps.foldl
    (fun acc p =>
      let r := vpack_rec acc.1 p.1 p.2
      (r.2, acc.2 ++ [r.1]))
    (vpack_rec1_t_init, [])

/-- The record built from a fresh accumulator by `vpack_rec` calls. -/
def buildRec (ps : List (Nat × Nat)) : vpack_rec1_t := (runRec ps).1

/-- The 2-bit allele codes of a pair list, flattened in packing order
(`ENCODE a` then `ENCODE b` for each pair). -/
def codesOf (ps : List (Nat × Nat)) : List Nat :=
  ps.foldr (fun p acc => ENCODE p.1 :: ENCODE p.2 :: acc) []

/-- The number whose base-4 digits, most significant first, are `cs`:
the arithmetic value of the accumulator word when no truncation occurs. -/
def natVal (cs : List Nat) : Nat := cs.foldl (fun v k => 4 * v + k) 0

/-- One of the four bases `{'A','C','G','T'}`. -/
def isBase (c : Nat) : Prop := c = 65 ∨ c = 67 ∨ c = 71 ∨ c = 84

instance (c : Nat) : Decidable (isBase c) := by unfold isBase; infer_instance

/-- One of the five recognized genotype characters `{'0','1','.','/','|'}`. -/
def isGTChar (c : Nat) : Prop := c = 48 ∨ c = 49 ∨ c = 46 ∨ c = 47 ∨ c = 124

instance (c : Nat) : Decidable (isGTChar c) := by unfold isGTChar; infer_instance

/-! ## Helper lemmas -/

theorem lor_shift_add (a b k : Nat) (h : b < 2 ^ k) : (a <<< k) ||| b = 2 ^ k * a + b := by
  rw [Nat.shiftLeft_eq, Nat.mul_comm]
  exact (Nat.mul_add_lt_is_or h a).symm

theorem and_seven (v : Nat) : v &&& 7 = v % 8 := by
  have h := Nat.and_pow_two_sub_one_eq_mod v 3
  norm_num at h
  exact h

theorem and_three (v : Nat) : v &&& 3 = v % 4 := by
  have h := Nat.and_pow_two_sub_one_eq_mod v 2
  norm_num at h
  exact h

theorem and_mask28 (v : Nat) : v &&& 0x0FFFFFFF = v % 2 ^ 28 := by
  have h := Nat.and_pow_two_sub_one_eq_mod v 28
  norm_num at h
  exact h

theorem and_mask5 (v : Nat) : v &&& 0x1F = v % 32 := by
  have h := Nat.and_pow_two_sub_one_eq_mod v 5
  norm_num at h
  exact h

theorem shr_eq_div (v k : Nat) : v >>> k = v / 2 ^ k := Nat.shiftRight_eq_div_pow v k

/-- If the genotype packer recognizes character `g` with code `K`, the
unpacker maps `K` back to `g`. -/
theorem gtCode_gtChar (g K : Nat) (h : gtCode g = some K) : gtChar K = some g := by
  unfold gtCode at h
  split_ifs at h with h1 h2 h3 h4 h5 <;> (cases h; subst_vars; rfl)

theorem gtCode_lt (g K : Nat) (h : gtCode g = some K) : K < 8 := by
  unfold gtCode at h
  split_ifs at h <;> (cases h; omega)

theorem isGTChar_code (g : Nat) (h : isGTChar g) : ∃ K, gtCode g = some K := by
  rcases h with rfl | rfl | rfl | rfl | rfl <;> exact ⟨_, rfl⟩

theorem ENCODE_lt_of_isBase (c : Nat) (h : isBase c) : ENCODE c < 4 := by
  rcases h with rfl | rfl | rfl | rfl <;> decide

/-- Decoding the 2-bit code of one of the four bases recovers the base. -/
theorem dec_ENCODE (c : Nat) (h : isBase c) : dec_dna_8.getD (ENCODE c) 0 = c := by
  rcases h with rfl | rfl | rfl | rfl <;> decide

theorem ENCODE_le (c : Nat) : ENCODE c ≤ 4 := by
  unfold ENCODE dna_8
  have h : c &&& 7 < 8 := by rw [and_seven]; omega
  interval_cases h : c &&& 7 <;> simp

theorem runRec_append (ps : List (Nat × Nat)) (p : Nat × Nat) :
    runRec (ps ++ [p]) =
      ((vpack_rec (runRec ps).1 p.1 p.2).2,
        (runRec ps).2 ++ [(vpack_rec (runRec ps).1 p.1 p.2).1]) := by
  unfold runRec
  rw [List.foldl_append]
  rfl

/-- Driving a fresh accumulator through at most 32 pairs: every call
succeeds, `offset` counts two codes per pair, and the decode buffer is
still all zero. -/
theorem runRec_state (ps : List (Nat × Nat)) :
    ps.length ≤ 32 →
      (runRec ps).1.offset = 2 * ps.length ∧
      (runRec ps).2 = List.replicate ps.length 0 ∧
      (runRec ps).1.gt = vpack_rec1_t_init.gt := by
  induction ps using List.reverseRecOn with
  | nil => exact fun _ => ⟨rfl, rfl, rfl⟩
  | append_singleton ps p ih =>
    intro h
    simp only [List.length_append, List.length_singleton] at h
    obtain ⟨ho, hs, hg⟩ := ih (by omega)
    rw [runRec_append]
    have hlt : ¬ (runRec ps).1.offset ≥ 63 := by rw [ho]; omega
    unfold vpack_rec
    rw [if_neg hlt]
    refine ⟨by simp; omega, ?_, hg⟩
    rw [hs]
    simp only [List.length_append, List.length_singleton, List.replicate_succ']

theorem codesOf_cons (p : Nat × Nat) (ps : List (Nat × Nat)) :
    codesOf (p :: ps) = ENCODE p.1 :: ENCODE p.2 :: codesOf ps := rfl

theorem codesOf_append (ps qs : List (Nat × Nat)) :
    codesOf (ps ++ qs) = codesOf ps ++ codesOf qs := by
  induction ps with
  | nil => rfl
  | cons p ps ih => rw [List.cons_append, codesOf_cons, codesOf_cons, ih]; rfl

theorem codesOf_length (ps : List (Nat × Nat)) :
    (codesOf ps).length = 2 * ps.length := by
  induction ps with
  | nil => rfl
  | cons p ps ih => rw [codesOf_cons]; simp [ih]; omega

theorem codesOf_lt (ps : List (Nat × Nat)) (hb : ∀ p ∈ ps, isBase p.1 ∧ isBase p.2) :
    ∀ k ∈ codesOf ps, k < 4 := by
  induction ps with
  | nil => intro k hk; cases hk
  | cons p ps ih =>
    intro k hk
    rw [codesOf_cons] at hk
    rcases List.mem_cons.mp hk with rfl | hk
    · exact ENCODE_lt_of_isBase _ (hb p (by simp)).1
    rcases List.mem_cons.mp hk with rfl | hk
    · exact ENCODE_lt_of_isBase _ (hb p (by simp)).2
    · exact ih (fun q hq => hb q (by simp [hq])) k hk

theorem codesOf_getD (ps : List (Nat × Nat)) :
    ∀ i < ps.length,
      (codesOf ps).getD (2 * i) 0 = ENCODE (ps.getD i (0, 0)).1 ∧
      (codesOf ps).getD (2 * i + 1) 0 = ENCODE (ps.getD i (0, 0)).2 := by
  induction ps with
  | nil => intro i hi; cases hi
  | cons p ps ih =>
    intro i hi
    cases i with
    | zero => exact ⟨rfl, rfl⟩
    | succ i =>
      have h2 : 2 * (i + 1) = 2 * i + 1 + 1 := by omega
      rw [codesOf_cons, h2, List.getD_cons_succ, List.getD_cons_succ,
        List.getD_cons_succ, List.getD_cons_succ, List.getD_cons_succ]
      exact ih i (by simpa using hi)

theorem natVal_append1 (cs : List Nat) (k : Nat) :
    natVal (cs ++ [k]) = 4 * natVal cs + k := by
  unfold natVal
  rw [List.foldl_append]
  rfl

theorem natVal_lt (cs : List Nat) (hc : ∀ k ∈ cs, k < 4) :
    natVal cs < 4 ^ cs.length := by
  induction cs using List.reverseRecOn with
  | nil => decide
  | append_singleton cs k ih =>
    have hk : k < 4 := hc k (by simp)
    have hcs := ih (fun x hx => hc x (by simp [hx]))
    rw [natVal_append1]
    simp only [List.length_append, List.length_singleton, pow_succ]
    omega

theorem natVal_digit (cs : List Nat) (hc : ∀ k ∈ cs, k < 4) :
    ∀ j < cs.length, natVal cs / 4 ^ (cs.length - 1 - j) % 4 = cs.getD j 0 := by
  induction cs using List.reverseRecOn with
  | nil => intro j hj; cases hj
  | append_singleton cs k ih =>
    intro j hj
    have hk : k < 4 := hc k (by simp)
    have hcs : ∀ x ∈ cs, x < 4 := fun x hx => hc x (by simp [hx])
    rw [natVal_append1]
    simp only [List.length_append, List.length_singleton] at hj ⊢
    rcases Nat.lt_or_ge j cs.length with hlt | hge
    · rw [List.getD_append _ _ _ _ hlt]
      have hexp : cs.length + 1 - 1 - j = (cs.length - 1 - j) + 1 := by omega
      rw [hexp, pow_succ, Nat.mul_comm (4 ^ (cs.length - 1 - j)) 4,
        ← Nat.div_div_eq_div_mul, (by omega : (4 * natVal cs + k) / 4 = natVal cs)]
      exact ih hcs j hlt
    · have hj' : j = cs.length := by omega
      subst hj'
      rw [List.getD_append_right _ _ _ _ (le_refl _), Nat.sub_self,
        (by omega : cs.length + 1 - 1 - cs.length = 0), pow_zero, Nat.div_one]
      simp
      omega

theorem vunpack_loop_v (n : Nat) : ∀ (v : Nat) (gt : Nat → Nat),
    (vunpack_loop v gt n).1 = v >>> (2 * n) := by
  induction n with
  | zero => intro v gt; rfl
  | succ n ih =>
    intro v gt
    show (vunpack_loop (v >>> 2) _ n).1 = _
    rw [ih, ← Nat.shiftRight_add, (by omega : 2 + 2 * n = 2 * (n + 1))]

theorem vunpack_loop_gt (n : Nat) : ∀ (v : Nat) (gt : Nat → Nat) (j : Nat),
    (vunpack_loop v gt n).2 j =
      if j < n then dec_dna_8.getD ((v >>> (2 * (n - 1 - j))) &&& 3) 0 else gt j := by
  induction n with
  | zero => intro v gt j; simp [vunpack_loop]
  | succ n ih =>
    intro v gt j
    show (vunpack_loop (v >>> 2) (Function.update gt n (dec_dna_8.getD (v &&& 3) 0)) n).2 j = _
    rw [ih]
    rcases Nat.lt_trichotomy j n with hlt | heq | hgt
    · rw [if_pos hlt, if_pos (by omega), ← Nat.shiftRight_add,
        (by omega : 2 + 2 * (n - 1 - j) = 2 * (n + 1 - 1 - j))]
    · subst heq
      rw [if_neg (by omega), if_pos (by omega), Function.update_same,
        (by omega : j + 1 - 1 - j = 0)]
      rfl
    · rw [if_neg (by omega), if_neg (by omega),
        Function.update_noteq (by omega : j ≠ n)]

/-- While the current word is small enough that the 2-bit left shift does
not overflow 64 bits, `VPACK_BASE` with an in-range code is plain base-4
digit insertion. -/
theorem VPACK_BASE_add (v c : Nat) (hc : ENCODE c < 4) (hv : v < 2 ^ 62) :
    VPACK_BASE v c = 4 * v + ENCODE c := by
  unfold VPACK_BASE
  rw [Nat.shiftLeft_eq, (by ring : v * 2 ^ 2 = 2 ^ 2 * v),
    Nat.mod_eq_of_lt (by omega), ← Nat.mul_add_lt_is_or (by omega : ENCODE c < 2 ^ 2) v]

/-- The accumulator word after a successful sequence of appends of base
pairs is the base-4 value of the flattened code list.  This needs at most
16 pairs (32 codes): beyond that the 64-bit word truncates. -/
theorem runRec_v (ps : List (Nat × Nat)) :
    ps.length ≤ 16 → (∀ p ∈ ps, isBase p.1 ∧ isBase p.2) →
      (runRec ps).1.v = natVal (codesOf ps) := by
  induction ps using List.reverseRecOn with
  | nil => exact fun _ _ => rfl
  | append_singleton ps p ih =>
    intro h hb
    simp only [List.length_append, List.length_singleton] at h
    have hb' : ∀ q ∈ ps, isBase q.1 ∧ isBase q.2 := fun q hq => hb q (by simp [hq])
    have hv := ih (by omega) hb'
    have ho := (runRec_state ps (by omega)).1
    rw [runRec_append]
    have hlt : ¬ (runRec ps).1.offset ≥ 63 := by rw [ho]; omega
    unfold vpack_rec
    rw [if_neg hlt]
    show VPACK_BASE (VPACK_BASE (runRec ps).1.v p.1) p.2 = _
    have hsplit : codesOf (ps ++ [p]) = (codesOf ps ++ [ENCODE p.1]) ++ [ENCODE p.2] := by
      rw [codesOf_append]
      simp [codesOf_cons, codesOf]
    rw [hsplit, natVal_append1, natVal_append1, hv]
    have hcs := natVal_lt (codesOf ps) (codesOf_lt ps hb')
    rw [codesOf_length] at hcs
    have hbound : natVal (codesOf ps) < 2 ^ 60 := by
      calc natVal (codesOf ps) < 4 ^ (2 * ps.length) := hcs
        _ ≤ 4 ^ 30 := Nat.pow_le_pow_right (by omega) (by omega)
        _ ≤ 2 ^ 60 := by norm_num
    have h1 : ENCODE p.1 < 4 := ENCODE_lt_of_isBase _ (hb p (by simp)).1
    have h2 : ENCODE p.2 < 4 := ENCODE_lt_of_isBase _ (hb p (by simp)).2
    rw [VPACK_BASE_add _ _ h1 (by omega), VPACK_BASE_add _ _ h2 (by omega)]

/-- Appending one base keeps the accumulator word below `2 ^ 64` and below
`4 ^ (number of codes packed)`. -/
theorem VPACK_BASE_bound (v c m : Nat) (hc : ENCODE c < 4) (hv64 : v < 2 ^ 64)
    (hvm : v < 2 ^ m) :
    VPACK_BASE v c < 2 ^ 64 ∧ VPACK_BASE v c < 2 ^ (m + 2) := by
  have h64 : VPACK_BASE v c < 2 ^ 64 := by
    unfold VPACK_BASE
    exact Nat.or_lt_two_pow (Nat.mod_lt _ (by norm_num)) (by omega)
  refine ⟨h64, ?_⟩
  rcases le_or_lt (m + 2) 64 with h | h
  · unfold VPACK_BASE
    apply Nat.or_lt_two_pow
    · calc (v <<< 2) % 2 ^ 64 ≤ v <<< 2 := Nat.mod_le _ _
        _ = v * 4 := by rw [Nat.shiftLeft_eq]
        _ < 2 ^ m * 4 := by exact Nat.mul_lt_mul_of_lt_of_le hvm (le_refl 4) (by norm_num)
        _ = 2 ^ (m + 2) := by rw [pow_add]; norm_num
    · calc ENCODE c < 4 := hc
        _ = 2 ^ 2 := by norm_num
        _ ≤ 2 ^ (m + 2) := Nat.pow_le_pow_right (by norm_num) (by omega)
  · exact lt_of_lt_of_le h64 (Nat.pow_le_pow_right (by norm_num) (by omega))

/-- Invariant: for records built with bases in `{A,C,G,T}`, the packed
word stays below `2 ^ (2 * offset)` (and below `2 ^ 64`). -/
theorem runRec_v_lt (ps : List (Nat × Nat)) (hb : ∀ p ∈ ps, isBase p.1 ∧ isBase p.2) :
    (runRec ps).1.v < 2 ^ 64 ∧ (runRec ps).1.v < 2 ^ (2 * (runRec ps).1.offset) := by
  induction ps using List.reverseRecOn with
  | nil => exact ⟨by decide, by decide⟩
  | append_singleton ps p ih =>
    have hb' : ∀ q ∈ ps, isBase q.1 ∧ isBase q.2 := fun q hq => hb q (by simp [hq])
    obtain ⟨h64, hm⟩ := ih hb'
    rw [runRec_append]
    unfold vpack_rec
    split
    · exact ⟨h64, hm⟩
    · have h1 : ENCODE p.1 < 4 := ENCODE_lt_of_isBase _ (hb p (by simp)).1
      have h2 : ENCODE p.2 < 4 := ENCODE_lt_of_isBase _ (hb p (by simp)).2
      obtain ⟨h64a, hma⟩ := VPACK_BASE_bound _ _ _ h1 h64 hm
      obtain ⟨h64b, hmb⟩ := VPACK_BASE_bound _ _ _ h2 h64a hma
      refine ⟨h64b, ?_⟩
      show VPACK_BASE (VPACK_BASE (runRec ps).1.v p.1) p.2 <
        2 ^ (2 * ((runRec ps).1.offset + 1 + 1))
      rw [(by ring : 2 * ((runRec ps).1.offset + 1 + 1) =
        2 * (runRec ps).1.offset + 2 + 2)]
      exact hmb

/-- Pushing one in-range field into the low end of the word, while the
word is still small enough that the shift cannot truncate, is plain
multiply-and-add. -/
theorem pack_step (v b k : Nat) (hb : b < 2 ^ k) (hv : v * 2 ^ k < 2 ^ 64) :
    ((v <<< k) % 2 ^ 64) ||| b = 2 ^ k * v + b := by
  rw [Nat.shiftLeft_eq, Nat.mod_eq_of_lt hv, Nat.mul_comm,
    ← Nat.mul_add_lt_is_or hb]

theorem vpack_gt9_step_eq (v g K : Nat) (h : gtCode g = some K) :
    vpack_gt9_step v g = ((v <<< 3) % 2 ^ 64) ||| K := by
  unfold vpack_gt9_step
  rw [h]

/-- Closed arithmetic form of `snvpack64` for in-range fields. -/
theorem snvpack64_eq (s c p ref alt g0 g1 g2 K0 K1 K2 : Nat)
    (hs : s < 2 ^ 17) (hc : c < 2 ^ 5) (hp : p < 2 ^ 28)
    (href : ENCODE ref < 4) (halt : ENCODE alt < 4)
    (h0 : gtCode g0 = some K0) (h1 : gtCode g1 = some K1) (h2 : gtCode g2 = some K2)
    (hK0 : K0 < 8) (hK1 : K1 < 8) (hK2 : K2 < 8) :
    snvpack64 s c p ref alt (g0, g1, g2) =
      2 ^ 3 * (2 ^ 3 * (2 ^ 3 * (2 ^ 2 * (2 ^ 2 * (2 ^ 28 * (2 ^ 5 * s + c) + p)
        + ENCODE ref) + ENCODE alt) + K0) + K1) + K2 := by
  simp only [snvpack64, vpack_gt9, VPACK_BASE,
    vpack_gt9_step_eq _ _ _ h0, vpack_gt9_step_eq _ _ _ h1, vpack_gt9_step_eq _ _ _ h2,
    Nat.zero_or, Nat.mod_eq_of_lt (show s < 2 ^ 32 by omega),
    Nat.mod_eq_of_lt (show c < 2 ^ 32 by omega),
    Nat.mod_eq_of_lt (show p < 2 ^ 32 by omega)]
  rw [pack_step s c 5 (by omega) (by omega)]
  rw [pack_step (2 ^ 5 * s + c) p 28 (by omega) (by omega)]
  rw [pack_step (2 ^ 28 * (2 ^ 5 * s + c) + p) (ENCODE ref) 2 (by omega) (by omega)]
  rw [pack_step (2 ^ 2 * (2 ^ 28 * (2 ^ 5 * s + c) + p) + ENCODE ref) (ENCODE alt) 2
    (by omega) (by omega)]
  rw [pack_step (2 ^ 2 * (2 ^ 2 * (2 ^ 28 * (2 ^ 5 * s + c) + p) + ENCODE ref)
    + ENCODE alt) K0 3 (by omega) (by omega)]
  rw [pack_step (2 ^ 3 * (2 ^ 2 * (2 ^ 2 * (2 ^ 28 * (2 ^ 5 * s + c) + p)
    + ENCODE ref) + ENCODE alt) + K0) K1 3 (by omega) (by omega)]
  rw [pack_step (2 ^ 3 * (2 ^ 3 * (2 ^ 2 * (2 ^ 2 * (2 ^ 28 * (2 ^ 5 * s + c) + p)
    + ENCODE ref) + ENCODE alt) + K0) + K1) K2 3 (by omega) (by omega)]

/-- Field-wise description of `snvunpack64` on an arbitrary word. -/
theorem snvunpack64_fields (w : Nat) (buf : Nat × Nat × Nat) :
    snvunpack64 w buf =
      { v := w >>> 46,
        sample_idx := (w >>> 46) % 2 ^ 32,
        chrom := (w >>> 41) &&& 0x1F,
        pos := (w >>> 13) &&& 0x0FFFFFFF,
        ref := dec_dna_8.getD ((w >>> 11) &&& 3) 0,
        alt := dec_dna_8.getD ((w >>> 9) &&& 3) 0,
        gt := ((gtChar ((w >>> 6) &&& 7)).getD buf.1,
               (gtChar ((w >>> 3) &&& 7)).getD buf.2.1,
               (gtChar (w &&& 7)).getD buf.2.2) } := by
  simp only [snvunpack64, vunpack_gt9, VUNPACK_BASE_base, VUNPACK_BASE_v,
    ← Nat.shiftRight_add]

theorem testBit_congr_of_mod_eq {x y k : Nat} (h : x % 2 ^ k = y % 2 ^ k) (i : Nat)
    (hik : i < k) : x.testBit i = y.testBit i := by
  have hc := congrArg (fun z => Nat.testBit z i) h
  simpa [Nat.testBit_mod_two_pow, hik] using hc

/-- OR-ing the same operand into two words congruent modulo `2 ^ k`
preserves the congruence. -/
theorem lor_congr_mod (x y r k : Nat) (h : x % 2 ^ k = y % 2 ^ k) :
    (x ||| r) % 2 ^ k = (y ||| r) % 2 ^ k := by
  apply Nat.eq_of_testBit_eq
  intro i
  rw [Nat.testBit_mod_two_pow, Nat.testBit_mod_two_pow]
  rcases Nat.lt_or_ge i k with hik | hik
  · rw [Nat.testBit_lor, Nat.testBit_lor, testBit_congr_of_mod_eq h i hik]
  · simp [show ¬ i < k by omega]

/-- Left-shifting two words congruent modulo `2 ^ k` by `m` bits (with
64-bit truncation) gives words congruent modulo `2 ^ (k + m)`. -/
theorem shl_congr_mod (x y k m : Nat) (h : x % 2 ^ k = y % 2 ^ k)
    (hkm : k + m ≤ 64) :
    ((x <<< m) % 2 ^ 64) % 2 ^ (k + m) = ((y <<< m) % 2 ^ 64) % 2 ^ (k + m) := by
  have hdvd : (2 : Nat) ^ (k + m) ∣ 2 ^ 64 := pow_dvd_pow 2 hkm
  rw [Nat.mod_mod_of_dvd _ hdvd, Nat.mod_mod_of_dvd _ hdvd, Nat.shiftLeft_eq,
    Nat.shiftLeft_eq, pow_add, Nat.mul_mod_mul_right, Nat.mul_mod_mul_right, h]

theorem VPACK_BASE_congr (x y c k : Nat) (h : x % 2 ^ k = y % 2 ^ k)
    (hk : k + 2 ≤ 64) :
    VPACK_BASE x c % 2 ^ (k + 2) = VPACK_BASE y c % 2 ^ (k + 2) := by
  unfold VPACK_BASE
  exact lor_congr_mod _ _ _ _ (shl_congr_mod x y k 2 h hk)

theorem vpack_gt9_step_congr (x y g k : Nat) (h : x % 2 ^ k = y % 2 ^ k)
    (hk : k + 3 ≤ 64) :
    vpack_gt9_step x g % 2 ^ (k + 3) = vpack_gt9_step y g % 2 ^ (k + 3) := by
  unfold vpack_gt9_step
  cases gtCode g with
  | some K => exact lor_congr_mod _ _ _ _ (shl_congr_mod x y k 3 h hk)
  | none => exact shl_congr_mod x y k 3 h hk

theorem vpack_gt9_step_lt64 (v g : Nat) : vpack_gt9_step v g < 2 ^ 64 := by
  unfold vpack_gt9_step
  cases hg : gtCode g with
  | some K =>
    have hK := gtCode_lt _ _ hg
    exact Nat.or_lt_two_pow (Nat.mod_lt _ (by norm_num)) (by omega)
  | none => exact Nat.mod_lt _ (by norm_num)

theorem snvpack64_lt (s c p ref alt : Nat) (g : Nat × Nat × Nat) :
    snvpack64 s c p ref alt g < 2 ^ 64 :=
  vpack_gt9_step_lt64 _ _

/-! ## Claim theorems -/

/-- Claim C6: for every 3-character genotype token over
`{'0','1','.','/','|'}`, unpacking the 9-bit code produced by `vpack_gt9`
with `vunpack_gt9` yields the token back, characters in original order. -/
theorem C6_gt_round_trip (g0 g1 g2 : Nat) (h0 : isGTChar g0) (h1 : isGTChar g1)
    (h2 : isGTChar g2) (u : Nat × Nat × Nat) :
    (vunpack_gt9 (vpack_gt9 0 (g0, g1, g2)) u).2 = (g0, g1, g2) := by
  rcases h0 with rfl | rfl | rfl | rfl | rfl <;>
    rcases h1 with rfl | rfl | rfl | rfl | rfl <;>
      rcases h2 with rfl | rfl | rfl | rfl | rfl <;> rfl

/-- Witness for C6 at the token `"0/1"`. -/
theorem C6_gt_round_trip_witness :
    (vunpack_gt9 (vpack_gt9 0 (48, 47, 49)) (0, 0, 0)).2 = (48, 47, 49) :=
  C6_gt_round_trip 48 47 49 (by decide) (by decide) (by decide) (0, 0, 0)

/-- Claim C7: for every base in `{'A','C','G','T'}`, decoding the code
produced by the allele encoder yields the base back. -/
theorem C7_allele_round_trip (b : Nat) (h : isBase b) :
    VUNPACK_BASE_base (ENCODE b) = b := by
  rcases h with rfl | rfl | rfl | rfl <;> decide

/-- Witness for C7 at `'A'`. -/
theorem C7_allele_round_trip_witness : VUNPACK_BASE_base (ENCODE 65) = 65 :=
  C7_allele_round_trip 65 (by decide)

/-- Claim C8: the allele encoder returns 4 for every byte whose low-3-bit
pattern is not among those of `{'A','C','G','T'}` (patterns 1, 3, 4, 7),
and packing such a byte corrupts the neighboring field: packing
`ref = 'N'` with `pos = 0` produces the same word as packing `ref = 'A'`
with `pos = 1` — the low bit of `pos` is altered. -/
theorem C8_degenerate_code (c : Nat)
    (h : ¬(c &&& 7 = 1 ∨ c &&& 7 = 3 ∨ c &&& 7 = 4 ∨ c &&& 7 = 7)) :
    ENCODE c = 4 ∧
      snvpack64 0 0 0 78 65 (48, 48, 48) = snvpack64 0 0 1 65 65 (48, 48, 48) := by
  constructor
  · unfold ENCODE dna_8
    have h8 : c &&& 7 < 8 := by rw [and_seven]; omega
    interval_cases hc : c &&& 7 <;> simp_all
  · decide

/-- Witness for C8 at `'N'` (byte 78, low-3 pattern 6). -/
theorem C8_degenerate_code_witness :
    ENCODE 78 = 4 ∧
      snvpack64 0 0 0 78 65 (48, 48, 48) = snvpack64 0 0 1 65 65 (48, 48, 48) :=
  C8_degenerate_code 78 (by decide)

set_option maxRecDepth 20000 in
/-- Claim C2 (counterexample): the capacity check is `offset >= 63`, so the
32nd `vpack_rec` call on a fresh record does NOT fail — it returns status 0,
not the claimed -1. -/
theorem C2_counterexample :
    (vpack_rec (buildRec (List.replicate 31 (65, 65))) 65 65).1 ≠ -1 := by decide

/-- Claim C2 (amended): on a fresh accumulator the first 32 `vpack_rec`
calls all succeed with status 0 (offset reaches 64), and the 33rd call
fails with status -1, leaving the record — packed word and offset —
unchanged. -/
theorem C2_capacity (ps : List (Nat × Nat)) (h : ps.length = 32) :
    (runRec ps).2 = List.replicate 32 0 ∧
      ∀ a b : Nat, vpack_rec (buildRec ps) a b = (-1, buildRec ps) := by
  obtain ⟨ho, hs, -⟩ := runRec_state ps (by omega)
  refine ⟨by rw [hs, h], fun a b => ?_⟩
  have h64 : (buildRec ps).offset = 64 := by rw [buildRec, ho, h]
  unfold vpack_rec
  rw [if_pos (by omega)]

/-- Witness for C2 at 32 `('A','A')` pairs. -/
theorem C2_capacity_witness :
    (runRec (List.replicate 32 (65, 65))).2 = List.replicate 32 0 ∧
      vpack_rec (buildRec (List.replicate 32 (65, 65))) 65 65 =
        (-1, buildRec (List.replicate 32 (65, 65))) := by
  have h := C2_capacity (List.replicate 32 (65, 65)) (by decide)
  exact ⟨h.1, h.2 65 65⟩

/-- Claim C9: after any sequence of `vpack_rec` calls on a freshly
initialized record — each appending a complete pair, whether accepted or
rejected — the record's `offset` is even. -/
theorem C9_offset_even (ps : List (Nat × Nat)) : Even ((buildRec ps).offset) := by
  unfold buildRec
  induction ps using List.reverseRecOn with
  | nil => exact ⟨0, rfl⟩
  | append_singleton ps p ih =>
    rw [runRec_append]
    unfold vpack_rec
    split
    · exact ih
    · obtain ⟨m, hm⟩ := ih
      exact ⟨m + 1, by simp only []; omega⟩

/-- Claim C5 (counterexample): `vunpack_rec` on a record that has had no
successful append does not return any failure status — the C function
returns `void` — and instead of rejecting it mutates the record, setting
the lifecycle tag to 2 (`Unpacked`). -/
theorem C5_counterexample :
    (vunpack_rec vpack_rec1_t_init).u = 2 ∧
      vunpack_rec vpack_rec1_t_init ≠ vpack_rec1_t_init := by
  refine ⟨rfl, fun h => ?_⟩
  have h2 := congrArg vpack_rec1_t.u h
  simp [vunpack_rec, vpack_rec1_t_init, vunpack_loop] at h2

/-- Claim C5 (amended): `vunpack_rec` returns no status at all; on a record
with no successful append it silently transitions the state tag to 2.
`vp_get_genotype` on a record whose state tag is below 2 does return the
explicit failure status -1. -/
theorem C5_state_misuse :
    (vunpack_rec vpack_rec1_t_init).u = 2 ∧
      ∀ (rec : vpack_rec1_t) (si : Nat) (buf : Nat × Nat),
        rec.u < 2 → (vp_get_genotype rec si buf).1 = -1 := by
  refine ⟨rfl, fun rec si buf h => ?_⟩
  simp only [vp_get_genotype]
  rw [if_pos (Or.inl h)]

/-- Witness for C5 on a freshly initialized record (state tag 0). -/
theorem C5_state_misuse_witness :
    (vunpack_rec vpack_rec1_t_init).u = 2 ∧
      (vp_get_genotype vpack_rec1_t_init 0 (0, 0)).1 = -1 :=
  ⟨C5_state_misuse.1, C5_state_misuse.2 vpack_rec1_t_init 0 (0, 0) (by decide)⟩

/-- Claim C3 (counterexample): a record built by 17 successful appends of
base pairs (first `('C','C')`, then 16 times `('A','A')`) overflows the
64-bit word; after unpacking, genotype 0 reads back as `('A','A')`, not the
`('C','C')` that was appended. -/
theorem C3_counterexample :
    (runRec ((67, 67) :: List.replicate 16 (65, 65))).2 = List.replicate 17 0 ∧
      (vp_get_genotype (vunpack_rec (buildRec ((67, 67) :: List.replicate 16 (65, 65))))
          0 (0, 0)).2 ≠ (67, 67) := by
  constructor
  · decide
  · decide

/-- Claim C3 (amended): for a record built from a fresh accumulator by
successful `vpack_rec` appends of at most 16 pairs of bases in
`{A,C,G,T}`, after `vunpack_rec`, `vp_get_genotype i` succeeds (status 0)
and returns exactly the i-th appended pair. -/
theorem C3_ordering (ps : List (Nat × Nat)) (hlen : ps.length ≤ 16)
    (hb : ∀ p ∈ ps, isBase p.1 ∧ isBase p.2) (i : Nat) (hi : i < ps.length)
    (buf : Nat × Nat) :
    vp_get_genotype (vunpack_rec (buildRec ps)) i buf = (0, ps.getD i (0, 0)) := by
  obtain ⟨ho, -, hg⟩ := runRec_state ps (by omega)
  have hv := runRec_v ps hlen hb
  have hcod := codesOf_lt ps hb
  have hlength := codesOf_length ps
  have hVlt : natVal (codesOf ps) < 4 ^ (2 * ps.length) := by
    have := natVal_lt (codesOf ps) hcod
    rwa [hlength] at this
  set V := natVal (codesOf ps) with hV
  -- the record after unpacking
  have hrec : vunpack_rec (buildRec ps) =
      { v := (vunpack_loop V (buildRec ps).gt (2 * ps.length)).1,
        offset := 2 * ps.length,
        gt := (vunpack_loop V (buildRec ps).gt (2 * ps.length)).2,
        u := 2 } := by
    unfold vunpack_rec
    rw [show (buildRec ps).offset = 2 * ps.length from ho,
      show (buildRec ps).v = V from hv]
  rw [hrec]
  have hsi : i % 2 ^ 32 = i := Nat.mod_eq_of_lt (by omega)
  unfold vp_get_genotype
  simp only [hsi]
  rw [if_neg (by omega)]
  have hread : ∀ j, j < 2 * ps.length →
      (vunpack_loop V (buildRec ps).gt (2 * ps.length)).2 j =
        dec_dna_8.getD ((codesOf ps).getD j 0) 0 := by
    intro j hj
    rw [vunpack_loop_gt, if_pos hj]
    have hshift : V >>> (2 * (2 * ps.length - 1 - j)) &&& 3 =
        V / 4 ^ (2 * ps.length - 1 - j) % 4 := by
      rw [and_three, shr_eq_div, Nat.pow_mul]
    rw [hshift, ← hlength]
    rw [natVal_digit (codesOf ps) hcod j (by omega)]
  have hgd := codesOf_getD ps i hi
  have hmem : ps.getD i (0, 0) ∈ ps := by
    rw [List.getD_eq_getElem ps (0, 0) hi]
    exact List.getElem_mem hi
  have hbase := hb _ hmem
  rw [Nat.mul_comm i 2, hread (2 * i) (by omega), hread (2 * i + 1) (by omega),
    hgd.1, hgd.2, dec_ENCODE _ hbase.1, dec_ENCODE _ hbase.2]

/-- Witness for C3 at the two-pair example from the spec:
`('A','T')` then `('G','C')`. -/
theorem C3_ordering_witness :
    vp_get_genotype (vunpack_rec (buildRec [(65, 84), (71, 67)])) 1 (0, 0) =
      (0, [(65, 84), (71, 67)].getD 1 (0, 0)) :=
  C3_ordering [(65, 84), (71, 67)] (by decide) (by decide) 1 (by decide) (0, 0)

/-- Claim C10: `snvunpack64` consumes the caller's word — after the call
the word holds the original value shifted right 46 bits instead of the
packed record — and `vunpack_rec` on a record built from base pairs
leaves the accumulator word `v` equal to 0. -/
theorem C10_unpack_consumes :
    (∀ (v : Nat) (buf : Nat × Nat × Nat), (snvunpack64 v buf).v = v >>> 46) ∧
      (∀ ps : List (Nat × Nat), (∀ p ∈ ps, isBase p.1 ∧ isBase p.2) →
        (vunpack_rec (buildRec ps)).v = 0) := by
  constructor
  · intro v buf
    rw [snvunpack64_fields]
  · intro ps hb
    obtain ⟨h64, hm⟩ := runRec_v_lt ps hb
    show (vunpack_loop (buildRec ps).v (buildRec ps).gt (buildRec ps).offset).1 = 0
    rw [vunpack_loop_v, shr_eq_div]
    exact Nat.div_eq_of_lt hm

/-- Witness for C10: a concrete word, and the record from one `('A','T')`
pair. -/
theorem C10_unpack_consumes_witness :
    (snvunpack64 354043563345433 (0, 0, 0)).v = 354043563345433 >>> 46 ∧
      (vunpack_rec (buildRec [(65, 84)])).v = 0 :=
  ⟨C10_unpack_consumes.1 354043563345433 (0, 0, 0),
    C10_unpack_consumes.2 [(65, 84)] (by decide)⟩

/-- Claim C1: single-variant round-trip — for every in-range sample index,
chromosome and position, bases in `{A,C,G,T}` and genotype characters in
the recognized set, `snvunpack64` applied to the word built by `snvpack64`
recovers every original field (and leaves the sample index in `*v`). -/
theorem C1_snv_round_trip (s c p ref alt g0 g1 g2 : Nat) (buf : Nat × Nat × Nat)
    (hs : s < 2 ^ 17) (hc : c < 2 ^ 5) (hp : p < 2 ^ 28)
    (href : isBase ref) (halt : isBase alt)
    (h0 : isGTChar g0) (h1 : isGTChar g1) (h2 : isGTChar g2) :
    snvunpack64 (snvpack64 s c p ref alt (g0, g1, g2)) buf =
      { v := s, sample_idx := s, chrom := c, pos := p, ref := ref, alt := alt,
        gt := (g0, g1, g2) } := by
  obtain ⟨K0, hK0⟩ := isGTChar_code g0 h0
  obtain ⟨K1, hK1⟩ := isGTChar_code g1 h1
  obtain ⟨K2, hK2⟩ := isGTChar_code g2 h2
  have hK0l := gtCode_lt _ _ hK0
  have hK1l := gtCode_lt _ _ hK1
  have hK2l := gtCode_lt _ _ hK2
  have hRl := ENCODE_lt_of_isBase _ href
  have hAl := ENCODE_lt_of_isBase _ halt
  rw [snvpack64_eq s c p ref alt g0 g1 g2 K0 K1 K2 hs hc hp hRl hAl hK0 hK1 hK2
    hK0l hK1l hK2l, snvunpack64_fields]
  set W : Nat := 2 ^ 3 * (2 ^ 3 * (2 ^ 3 * (2 ^ 2 * (2 ^ 2 *
    (2 ^ 28 * (2 ^ 5 * s + c) + p) + ENCODE ref) + ENCODE alt) + K0) + K1) + K2
    with hW
  simp only [snv_fields.mk.injEq, Prod.mk.injEq]
  refine ⟨?_, ?_, ?_, ?_, ?_, ?_, ?_, ?_, ?_⟩
  · rw [shr_eq_div, hW]
    omega
  · rw [shr_eq_div, hW]
    omega
  · rw [shr_eq_div, and_mask5, hW]
    omega
  · rw [shr_eq_div, and_mask28, hW]
    omega
  · have hfield : W >>> 11 &&& 3 = ENCODE ref := by
      rw [shr_eq_div, and_three, hW]
      omega
    rw [hfield, dec_ENCODE _ href]
  · have hfield : W >>> 9 &&& 3 = ENCODE alt := by
      rw [shr_eq_div, and_three, hW]
      omega
    rw [hfield, dec_ENCODE _ halt]
  · have hfield : W >>> 6 &&& 7 = K0 := by
      rw [shr_eq_div, and_seven, hW]
      omega
    rw [hfield, gtCode_gtChar _ _ hK0]
    rfl
  · have hfield : W >>> 3 &&& 7 = K1 := by
      rw [shr_eq_div, and_seven, hW]
      omega
    rw [hfield, gtCode_gtChar _ _ hK1]
    rfl
  · have hfield : W &&& 7 = K2 := by
      rw [and_seven, hW]
      omega
    rw [hfield, gtCode_gtChar _ _ hK2]
    rfl

/-- Witness for C1 at the spec's example:
`pack(5, 1, 100000, 'A', 'T', "0/1")`. -/
theorem C1_snv_round_trip_witness :
    snvunpack64 (snvpack64 5 1 100000 65 84 (48, 47, 49)) (0, 0, 0) =
      { v := 5, sample_idx := 5, chrom := 1, pos := 100000, ref := 65, alt := 84,
        gt := (48, 47, 49) } :=
  C1_snv_round_trip 5 1 100000 65 84 48 47 49 (0, 0, 0) (by decide) (by decide)
    (by decide) (by decide) (by decide) (by decide) (by decide) (by decide)

/-- Claim C4 (counterexample): packing does NOT truncate each field to its
declared width — `chrom = 32` produces a different word than
`chrom = 32 mod 2 ^ 5 = 0` with the other fields unchanged. -/
theorem C4_counterexample :
    snvpack64 0 32 0 65 65 (48, 48, 48) ≠
      snvpack64 (0 % 2 ^ 17) (32 % 2 ^ 5) (0 % 2 ^ 28) 65 65 (48, 48, 48) := by
  decide

/-- Claim C4 (amended): the packing applies no per-field masking and
signals no error.  The only truncation is through the 64-bit word:
`sample_idx` is reduced modulo `2 ^ 18` (17-bit field plus the unused top
bit), while out-of-width `chrom` (and `pos`) bits spill by OR into the
adjacent more significant field — `chrom = 32` packs exactly like
`sample_idx = 1, chrom = 0`. -/
theorem C4_truncation :
    (∀ s c p ref alt g0 g1 g2 : Nat,
        snvpack64 s c p ref alt (g0, g1, g2) =
          snvpack64 (s % 2 ^ 18) c p ref alt (g0, g1, g2)) ∧
      (∀ (p ref alt : Nat) (g : Nat × Nat × Nat),
        snvpack64 0 32 p ref alt g = snvpack64 1 0 p ref alt g) := by
  constructor
  · intro s c p ref alt g0 g1 g2
    have hx : snvpack64 s c p ref alt (g0, g1, g2) =
        vpack_gt9_step (vpack_gt9_step (vpack_gt9_step
          (VPACK_BASE
            (VPACK_BASE
              ((((((0 ||| (s % 2 ^ 32)) <<< 5) % 2 ^ 64) ||| (c % 2 ^ 32)) <<< 28)
                  % 2 ^ 64
                ||| (p % 2 ^ 32))
              ref)
            alt)
          g0) g1) g2 := rfl
    have hy : snvpack64 (s % 2 ^ 18) c p ref alt (g0, g1, g2) =
        vpack_gt9_step (vpack_gt9_step (vpack_gt9_step
          (VPACK_BASE
            (VPACK_BASE
              ((((((0 ||| (s % 2 ^ 18 % 2 ^ 32)) <<< 5) % 2 ^ 64) ||| (c % 2 ^ 32))
                    <<< 28) % 2 ^ 64
                ||| (p % 2 ^ 32))
              ref)
            alt)
          g0) g1) g2 := rfl
    have h0 : (0 ||| (s % 2 ^ 32)) % 2 ^ 18 = (0 ||| (s % 2 ^ 18 % 2 ^ 32)) % 2 ^ 18 := by
      rw [Nat.zero_or, Nat.zero_or]
      omega
    have h1 := lor_congr_mod _ _ (c % 2 ^ 32) _ (shl_congr_mod _ _ 18 5 h0 (by omega))
    have h2 := lor_congr_mod _ _ (p % 2 ^ 32) _
      (shl_congr_mod _ _ (18 + 5) 28 h1 (by omega))
    have h3 := VPACK_BASE_congr _ _ ref (18 + 5 + 28) h2 (by omega)
    have h4 := VPACK_BASE_congr _ _ alt (18 + 5 + 28 + 2) h3 (by omega)
    have h5 := vpack_gt9_step_congr _ _ g0 (18 + 5 + 28 + 2 + 2) h4 (by omega)
    have h6 := vpack_gt9_step_congr _ _ g1 (18 + 5 + 28 + 2 + 2 + 3) h5 (by omega)
    have h7 := vpack_gt9_step_congr _ _ g2 (18 + 5 + 28 + 2 + 2 + 3 + 3) h6 (by omega)
    rw [(by norm_num : 18 + 5 + 28 + 2 + 2 + 3 + 3 + 3 = 64)] at h7
    have xlt := snvpack64_lt s c p ref alt (g0, g1, g2)
    have ylt := snvpack64_lt (s % 2 ^ 18) c p ref alt (g0, g1, g2)
    rw [hx] at xlt
    rw [hy] at ylt
    rw [hx, hy, ← Nat.mod_eq_of_lt xlt, ← Nat.mod_eq_of_lt ylt]
    exact h7
  · intro p ref alt g
    rfl

/-- Witness for C4: `sample_idx = 2 ^ 18 + 7` packs like `7`; a chrom
overflow instance of the second part. -/
theorem C4_truncation_witness :
    snvpack64 (2 ^ 18 + 7) 3 9 65 84 (48, 47, 49) =
      snvpack64 ((2 ^ 18 + 7) % 2 ^ 18) 3 9 65 84 (48, 47, 49) ∧
      snvpack64 0 32 5 65 84 (48, 47, 49) = snvpack64 1 0 5 65 84 (48, 47, 49) :=
  ⟨C4_truncation.1 (2 ^ 18 + 7) 3 9 65 84 48 47 49,
    C4_truncation.2 5 65 84 (48, 47, 49)⟩

end VPack
